import Mathlib

/-!
Shallow embedding of `channels/views.py` (a materialized-view cache over a
redis-like store, fronted by a debouncing `Publisher`), together with theorems
checking the specification's claims against the embedded code.

Conventions of the embedding:
* Python dicts and redis hashes are association lists `List (String × v)`;
  lookup takes the first matching key, which agrees with dict semantics
  whenever all values stored for one key are equal (which is the case in
  every place the code builds such a list).
* Timestamps and scores are `Int` (`time.time()` values are positive reals;
  only `+`, `<` and comparison with the literal `3` are used on them).
* The backing store is a pair of keyed maps (sorted sets and hashes); the
  program keeps sorted-set values only at view keys and hashes only at
  object keys.
-/

/-- Association-list lookup, modelling Python dict lookup and redis key
lookup: the value of the first pair whose key equals `k`, if any. -/
def lookupA {β : Type} (k : String) : List (String × β) → Option β
  | [] => none
  | p :: l => if p.1 = k then some p.2 else lookupA k l

/-- Remove every pair whose key equals `k` (redis key deletion, and removal
of one member from a sorted set). -/
def eraseKey {β : Type} (k : String) : List (String × β) → List (String × β)
  | [] => []
  | p :: l => if p.1 = k then eraseKey k l else p :: eraseKey k l

/-- Apply `f` to the value stored at key `k`, leaving all other entries
unchanged. -/
def mapVal {β : Type} (k : String) (f : β → β) : List (String × β) → List (String × β)
  | [] => []
  | p :: l => if p.1 = k then (p.1, f p.2) :: mapVal k f l else p :: mapVal k f l

theorem lookupA_eraseKey_self {β : Type} (k : String) (l : List (String × β)) :
    lookupA k (eraseKey k l) = none := by
  induction l with
  | nil => rfl
  | cons p l ih =>
    by_cases h : p.1 = k
    · simpa [eraseKey, h] using ih
    · simp [eraseKey, lookupA, h, ih]

theorem lookupA_eraseKey_ne {β : Type} {k k' : String} (h : k' ≠ k)
    (l : List (String × β)) : lookupA k' (eraseKey k l) = lookupA k' l := by
  induction l with
  | nil => rfl
  | cons p l ih =>
    by_cases hp : p.1 = k
    · simp [eraseKey, hp, lookupA, Ne.symm h, ih]
    · by_cases hp' : p.1 = k'
      · simp [eraseKey, lookupA, hp', h]
      · simp [eraseKey, hp, lookupA, hp', ih]

theorem lookupA_mapVal_self {β : Type} (k : String) (f : β → β)
    (l : List (String × β)) :
    lookupA k (mapVal k f l) = (lookupA k l).map f := by
  induction l with
  | nil => rfl
  | cons p l ih =>
    by_cases h : p.1 = k
    · simp [mapVal, h, lookupA]
    · simp [mapVal, h, lookupA, ih]

theorem lookupA_mapVal_ne {β : Type} {k k' : String} (h : k' ≠ k) (f : β → β)
    (l : List (String × β)) : lookupA k' (mapVal k f l) = lookupA k' l := by
  induction l with
  | nil => rfl
  | cons p l ih =>
    by_cases hp : p.1 = k
    · simp [mapVal, hp, lookupA, Ne.symm h, ih]
    · by_cases hp' : p.1 = k'
      · simp [mapVal, lookupA, hp', h]
      · simp [mapVal, hp, lookupA, hp', ih]

theorem fst_ne_of_mem_eraseKey {β : Type} {k : String} {p : String × β}
    {l : List (String × β)} (h : p ∈ eraseKey k l) : p.1 ≠ k := by
  induction l with
  | nil => simp [eraseKey] at h
  | cons q l ih =>
    by_cases hq : q.1 = k
    · exact ih (by simpa [eraseKey, hq] using h)
    · rcases (by simpa [eraseKey, hq] using h : p = q ∨ p ∈ eraseKey k l) with h1 | h2
      · simpa [h1] using hq
      · exact ih h2

theorem lookupA_map_self {β : Type} (f : String → β) {t : String}
    {l : List String} (h : t ∈ l) :
    lookupA t (l.map fun id => (id, f id)) = some (f t) := by
  induction l with
  | nil => simp at h
  | cons a l ih =>
    by_cases ha : a = t
    · simp [lookupA, ha]
    · have ht : t ∈ l := by
        rcases List.mem_cons.mp h with h1 | h1
        · exact absurd h1.symm ha
        · exact h1
      simp [lookupA, ha, ih ht]

/-! ## Publisher (debounce filter in front of the publish primitive) -/

/-- Truthiness of the debounce-cache lookup result, exactly as Python
evaluates `if val and ...`: an absent entry is falsy, and so is a zero
timestamp. -/
def truthy : Option Int → Bool
  | none => false
  | some t => decide (t ≠ 0)

/-- The state a `Publisher` instance sees: its debounce cache (the LRU of
last-published timestamps) and the log of payloads that actually reached the
backing `client.publish` primitive. -/
structure PubState where
  lru : List (String × Int)
  published : List (String × String)

/-- Modelled from the spec: `channels.contrib.lrucache.LRUCache.put` is not
under `src/`; per the spec's Debounce Cache contract (`put(key, timestamp)`
makes a later `get(key)` return that timestamp) it is modelled as insertion
into an association list, ignoring capacity eviction (the claims under
consideration concern runs in which the entry has not been evicted). -/
def lruPut (k : String) (t : Int) (l : List (String × Int)) : List (String × Int) :=
  (k, t) :: eraseKey k l

/-- `Publisher.publish` from `channels/views.py`:
suppress (return `False`) when the cached timestamp is truthy and
`(val + 3) < now`; otherwise record `now` and forward to `client.publish`.
`clientOk` models whether the backing transport call succeeds; when it fails
the raised `TransportError` is modelled as `Except.error` carrying the state
at the raise point. -/
def Publisher.publish (clientOk : Bool) (st : PubState) (now : Int)
    (key value : String) : Except PubState (Bool × PubState) :=
  let val := lookupA key st.lru
  if truthy val && decide (val.getD 0 + 3 < now) then
    Except.ok (false, st)
  else
    let st1 : PubState := ⟨lruPut key now st.lru, st.published⟩
    if clientOk then
      Except.ok (true, ⟨st1.lru, st1.published ++ [(key, value)]⟩)
    else
      Except.error st1

/-- C2: `Publisher.publish` returns `false` without forwarding and without
touching any state exactly when a prior (positive, i.e. real `time.time()`)
timestamp for `key` exists in the debounce cache and `prior + 3 < now`; in
every other case it records `now` as the new timestamp for `key`, forwards
`(key, value)` to the backing publish primitive, and returns `true`. -/
theorem publish_spec (st : PubState) (now : Int) (key value : String)
    (hpos : ∀ t, lookupA key st.lru = some t → 0 < t) :
    ((∃ t, lookupA key st.lru = some t ∧ t + 3 < now) →
      Publisher.publish true st now key value = Except.ok (false, st))
    ∧ ((∀ t, lookupA key st.lru = some t → now ≤ t + 3) →
      ∃ st1, Publisher.publish true st now key value = Except.ok (true, st1) ∧
        lookupA key st1.lru = some now ∧
        st1.published = st.published ++ [(key, value)]) := by
  constructor
  · rintro ⟨t, ht, hlt⟩
    have htpos : 0 < t := hpos t ht
    simp [Publisher.publish, ht, truthy, htpos.ne', hlt]
  · intro hfresh
    cases h : lookupA key st.lru with
    | none =>
      refine ⟨⟨lruPut key now st.lru, st.published ++ [(key, value)]⟩, ?_, ?_, rfl⟩
      · simp [Publisher.publish, h, truthy]
      · simp [lruPut, lookupA]
    | some t =>
      have hle : now ≤ t + 3 := hfresh t h
      have : ¬ (t + 3 < now) := not_lt.mpr hle
      refine ⟨⟨lruPut key now st.lru, st.published ++ [(key, value)]⟩, ?_, ?_, rfl⟩
      · simp [Publisher.publish, h, truthy, this]
      · simp [lruPut, lookupA]

/-- C2 witness: with a cached timestamp `1` for `"k"` and `now = 10`, the
prior entry is stale (`1 + 3 < 10`), so the call is suppressed. -/
theorem publish_spec_witness :
    Publisher.publish true ⟨[("k", 1)], []⟩ 10 "k" "v" =
      Except.ok (false, ⟨[("k", 1)], []⟩) :=
  (publish_spec ⟨[("k", 1)], []⟩ 10 "k" "v"
      (fun t ht => by simp [lookupA] at ht; omega)).1
    ⟨1, by simp [lookupA], by norm_num⟩

/-- C1: the debounce claim fails on the code: publishing to `"k"` at time 10
and again at time 11 (one unit apart, well inside the 3-unit cooldown, no
eviction) makes BOTH calls forward to the backing publish primitive and BOTH
return `true` — the suppression test `(val + 3) < now` fires only after the
window has already elapsed, never inside it. -/
theorem publish_both_within_window_forward :
    Publisher.publish true ⟨[], []⟩ 10 "k" "v1" =
      Except.ok (true, ⟨[("k", 10)], [("k", "v1")]⟩) ∧
    Publisher.publish true ⟨[("k", 10)], [("k", "v1")]⟩ 11 "k" "v2" =
      Except.ok (true, ⟨[("k", 11)], [("k", "v1"), ("k", "v2")]⟩) :=
  ⟨rfl, rfl⟩

/-- C10: whenever `publish` decides to forward and the backing publish call
fails (`TransportError`), the error state already carries `now` as the
debounce timestamp for `key` — the cache write happens before the transport
call, so the failed attempt still starts a new cooldown window — while the
backing publish log is unchanged. -/
theorem publish_failure_updates_lru (st : PubState) (now : Int)
    (key value : String) (st1 : PubState)
    (h : Publisher.publish false st now key value = Except.error st1) :
    lookupA key st1.lru = some now ∧ st1.published = st.published := by
  unfold Publisher.publish at h
  by_cases hc : truthy (lookupA key st.lru) &&
      decide ((lookupA key st.lru).getD 0 + 3 < now)
  · simp [hc] at h
  · simp only [hc, Bool.false_eq_true, if_false, if_true] at h
    cases h
    exact ⟨by simp [lruPut, lookupA], rfl⟩

/-- C10 witness: a failing forward from the empty cache at `now = 5` leaves
timestamp `5` recorded for `"k"` and nothing published. -/
theorem publish_failure_updates_lru_witness :
    lookupA "k" (PubState.mk [("k", 5)] []).lru = some 5 ∧
      (PubState.mk [("k", 5)] []).published = (PubState.mk [] []).published :=
  publish_failure_updates_lru ⟨[], []⟩ 5 "k" "v" ⟨[("k", 5)], []⟩ rfl

/-! ## Python string primitives, modelled over code-point lists -/

/-- Python `s.split(' ')`: split on every single space, keeping empty pieces
(`"a  b".split(' ') == ['a', '', 'b']`, `''.split(' ') == ['']`). -/
def splitSpaceAux : List Char → List Char → List String
  | [], acc => [String.mk acc.reverse]
  | c :: cs, acc =>
    if c = ' ' then String.mk acc.reverse :: splitSpaceAux cs []
    else splitSpaceAux cs (c :: acc)

/-- Python `s.split(' ')` on a string. -/
def splitSpace (s : String) : List String := splitSpaceAux s.data []

/-- Python `s.lower()`, code point by code point. -/
def toLowerStr (s : String) : String := String.mk (s.data.map Char.toLower)

/-- Lexicographic order on code-point lists, as Python and redis compare
strings. -/
def charListLt : List Char → List Char → Bool
  | [], [] => false
  | [], _ :: _ => true
  | _ :: _, [] => false
  | a :: as, b :: bs => if a < b then true else if b < a then false else charListLt as bs

/-- Strict lexicographic comparison of strings. -/
def strLt (a b : String) : Bool := charListLt a.data b.data

/-! ## The backing store (redis collaborator) -/

/-- A stored hash object: field name to field value. -/
abbrev Hash := List (String × String)

/-- The backing key-value store: sorted sets (member, score) and hashes.
The program keeps sorted sets only at view keys and hashes only at object
keys, so the two keyspaces are modelled as separate maps. -/
structure Store where
  zsets : List (String × List (String × Int))
  hashes : List (String × Hash)

/-- Sorted-set ordering: ascending score, ties broken by ascending member
string, as redis orders sorted sets. -/
def zleb (a b : String × Int) : Bool :=
  if a.2 < b.2 then true else if b.2 < a.2 then false else !(strLt b.1 a.1)

/-- `zleb` as a relation, for `List.insertionSort`. -/
def zle (a b : String × Int) : Prop := zleb a b = true

instance : DecidableRel zle := fun a b => inferInstanceAs (Decidable (zleb a b = true))

/-- Redis index-range normalization for `ZRANGE`/`ZREVRANGE`: negative
indices count from the end, the range is inclusive, and an inverted or
out-of-bounds range is empty. -/
def rangeSlice {α : Type} (l : List α) (start stop : Int) : List α :=
  let n : Int := l.length
  let s := if start < 0 then max (n + start) 0 else start
  let e := min (if stop < 0 then n + stop else stop) (n - 1)
  if s > e then [] else (l.drop s.toNat).take (e - s + 1).toNat

/-- `ZRANGE key start stop`: members in ascending score order. -/
def Store.zrange (st : Store) (key : String) (start stop : Int) : List String :=
  match lookupA key st.zsets with
  | none => []
  | some es => rangeSlice ((List.insertionSort zle es).map Prod.fst) start stop

/-- `ZREVRANGE key start stop`: members in descending score order. -/
def Store.zrevrange (st : Store) (key : String) (start stop : Int) : List String :=
  match lookupA key st.zsets with
  | none => []
  | some es => rangeSlice (((List.insertionSort zle es).map Prod.fst).reverse) start stop

/-- `EXISTS key`. -/
def Store.existsKey (st : Store) (k : String) : Bool :=
  (lookupA k st.zsets).isSome || (lookupA k st.hashes).isSome

/-- `HGETALL key`: the stored hash, or the empty mapping when absent. -/
def Store.hgetall (st : Store) (k : String) : Hash :=
  (lookupA k st.hashes).getD []

/-- `ZREM key member`. -/
def Store.zrem (st : Store) (key member : String) : Store :=
  ⟨mapVal key (eraseKey member) st.zsets, st.hashes⟩

/-- Key deletion (the client's `remove`). -/
def Store.del (st : Store) (key : String) : Store :=
  ⟨eraseKey key st.zsets, eraseKey key st.hashes⟩

/-! ## View -/

/-- A `View` instance: only the namespace data is state, everything else
lives in the backing store. -/
structure View where
  version : Int
  name : String

/-- `self.ns = 'view:%d:%s' % (self.version, name)`. -/
def View.ns (v : View) : String :=
  "view:" ++ toString v.version ++ ":" ++ v.name

/-- `self.pns = 'channel:%d: %s' % (self.version, name)` (the space after
the colon is in the source). -/
def View.pns (v : View) : String :=
  "channel:" ++ toString v.version ++ ": " ++ v.name

/-- Order in which Python's `sorted` arranges `kwargs.items()`: pairs
compared lexicographically, first component first. -/
def pairLe (a b : String × String) : Prop :=
  a.1 < b.1 ∨ (a.1 = b.1 ∧ a.2 ≤ b.2)

instance : DecidableRel pairLe := fun a b => by unfold pairLe; infer_instance

instance : IsTotal (String × String) pairLe :=
  ⟨fun a b => by
    rcases lt_trichotomy a.1 b.1 with h | h | h
    · exact Or.inl (Or.inl h)
    · rcases le_total a.2 b.2 with h2 | h2
      · exact Or.inl (Or.inr ⟨h, h2⟩)
      · exact Or.inr (Or.inr ⟨h.symm, h2⟩)
    · exact Or.inr (Or.inl h)⟩

instance : IsTrans (String × String) pairLe :=
  ⟨fun a b c hab hbc => by
    rcases hab with h1 | ⟨e1, le1⟩
    · rcases hbc with h2 | ⟨e2, _⟩
      · exact Or.inl (h1.trans h2)
      · exact Or.inl (by rw [← e2]; exact h1)
    · rcases hbc with h2 | ⟨e2, le2⟩
      · exact Or.inl (by rw [e1]; exact h2)
      · exact Or.inr ⟨e1.trans e2, le1.trans le2⟩⟩

instance : IsAntisymm (String × String) pairLe :=
  ⟨fun a b hab hba => by
    rcases hab with h1 | ⟨e1, le1⟩
    · rcases hba with h2 | ⟨e2, _⟩
      · exact absurd (h1.trans h2) (lt_irrefl _)
      · exact absurd (by rw [e2] at h1; exact h1) (lt_irrefl _)
    · rcases hba with h2 | ⟨e2, le2⟩
      · exact absurd (by rw [e1] at h2; exact h2) (lt_irrefl _)
      · have : a.2 = b.2 := le_antisymm le1 le2
        cases a; cases b; simp_all⟩

/-- `View.get_key`: sort the filter pairs, render them as `k=v` joined by
`&`, and append to the (optionally suffixed) namespace. A `None` or empty
suffix is falsy in Python and leaves the namespace bare. -/
def View.get_key (v : View) (keybase : Option String)
    (kwargs : List (String × String)) : String :=
  let kwarg_str :=
    String.intercalate "&" ((List.insertionSort pairLe kwargs).map fun p => p.1 ++ "=" ++ p.2)
  let base :=
    match keybase with
    | none => v.ns
    | some kb => if kb = "" then v.ns else v.ns ++ ":" ++ kb
  base ++ ":" ++ kwarg_str

/-- `View.get_channel_key`. -/
def View.get_channel_key (v : View) (key : String) : String :=
  v.pns ++ ":" ++ key

/-- `View.get_obj_key`. -/
def View.get_obj_key (v : View) (id : String) : String :=
  v.ns ++ ":objects:" ++ id

/-- C3: `get_key` is a pure function of namespace, optional suffix and the
set of filter pairs, independent of the order in which the filters are
supplied: permuting the filter list leaves the derived key unchanged,
because the pairs are sorted before being joined. -/
theorem get_key_perm (v : View) (keybase : Option String)
    (l1 l2 : List (String × String)) (h : l1.Perm l2) :
    v.get_key keybase l1 = v.get_key keybase l2 := by
  have hs : List.insertionSort pairLe l1 = List.insertionSort pairLe l2 :=
    List.eq_of_perm_of_sorted
      (((List.perm_insertionSort pairLe l1).trans h).trans
        (List.perm_insertionSort pairLe l2).symm)
      (List.sorted_insertionSort pairLe l1)
      (List.sorted_insertionSort pairLe l2)
  simp only [View.get_key, hs]

/-- C3 witness: `get_key(None, b=2, a=1) == get_key(None, a=1, b=2)` on the
`posts` view. -/
theorem get_key_perm_witness :
    View.get_key ⟨1, "posts"⟩ none [("b", "2"), ("a", "1")] =
      View.get_key ⟨1, "posts"⟩ none [("a", "1"), ("b", "2")] :=
  get_key_perm ⟨1, "posts"⟩ none _ _ (List.Perm.swap ("a", "1") ("b", "2") [])

/-- `View.get`: fetch the full object from the shared object cache; an empty
result (missing id or all-empty hash, which redis reports identically) is
falsy in Python and yields `None`. -/
def View.get (v : View) (st : Store) (id : String) : Option Hash :=
  let result := st.hgetall (v.get_obj_key id)
  if result.isEmpty then none else some result

/-- `View.list`: range of ids from the materialized view, then a pipelined
`hgetall` per id (`obj_cache`), keeping the truthy resolved objects. The
comprehension guard `if obj_cache` from the source is the constant
truthiness test of the whole dict. -/
def View.list (v : View) (st : Store) (offset limit : Int) (desc : Bool)
    (_key : Option String) (kwargs : List (String × String)) : Option (List Hash) :=
  let key := v.get_key _key kwargs
  let id_list :=
    if desc then st.zrevrange key offset (offset + limit)
    else st.zrange key offset (offset + limit)
  if id_list.isEmpty then
    if st.existsKey key then some [] else none
  else
    let obj_cache := id_list.map fun id => (id, st.hgetall (v.get_obj_key id))
    let items := (id_list.filter fun _ => !obj_cache.isEmpty).map
      fun t => (lookupA t obj_cache).getD []
    some (items.filter fun d => !d.isEmpty)

theorem filter_bool_map {α : Type} (f : α → Hash) (l : List α) :
    ((l.map f).filter fun d => !d.isEmpty) =
      l.filterMap fun a => if (f a).isEmpty then none else some (f a) := by
  induction l with
  | nil => rfl
  | cons a l ih =>
    cases hfa : f a with
    | nil => simp [hfa, ih]
    | cons x xs => simp [hfa, ih]

theorem zrange_of_absent {st : Store} {key : String}
    (h : lookupA key st.zsets = none) (a b : Int) : st.zrange key a b = [] := by
  simp [Store.zrange, h]

theorem zrevrange_of_absent {st : Store} {key : String}
    (h : lookupA key st.zsets = none) (a b : Int) : st.zrevrange key a b = [] := by
  simp [Store.zrevrange, h]

theorem list_eq (v : View) (st : Store) (offset limit : Int) (desc : Bool)
    (_key : Option String) (kwargs : List (String × String)) :
    v.list st offset limit desc _key kwargs =
      (if (if desc then st.zrevrange (v.get_key _key kwargs) offset (offset + limit)
           else st.zrange (v.get_key _key kwargs) offset (offset + limit)).isEmpty
       then (if st.existsKey (v.get_key _key kwargs) then some [] else none)
       else some ((if desc then st.zrevrange (v.get_key _key kwargs) offset (offset + limit)
                   else st.zrange (v.get_key _key kwargs) offset (offset + limit)).filterMap
                  fun id => v.get st id)) := by
  simp only [View.list]
  generalize (if desc then st.zrevrange (v.get_key _key kwargs) offset (offset + limit)
              else st.zrange (v.get_key _key kwargs) offset (offset + limit)) = ids
  cases ids with
  | nil => rfl
  | cons a rest =>
    rw [if_neg (by simp : ¬((a :: rest).isEmpty = true)),
      if_neg (by simp : ¬((a :: rest).isEmpty = true))]
    refine congrArg some ?_
    have hmapg :
        ((a :: rest).map fun t =>
            (lookupA t ((a :: rest).map fun id =>
              (id, st.hgetall (v.get_obj_key id)))).getD []) =
          (a :: rest).map fun id => st.hgetall (v.get_obj_key id) :=
      List.map_congr_left fun t ht => by
        rw [lookupA_map_self (fun id => st.hgetall (v.get_obj_key id)) ht]
        rfl
    have hguard : ((a :: rest).filter fun _ =>
        !((a :: rest).map fun id => (id, st.hgetall (v.get_obj_key id))).isEmpty) =
          a :: rest := by
      rw [show ((a :: rest).map fun id =>
        (id, st.hgetall (v.get_obj_key id))).isEmpty = false from rfl]
      simp
    rw [hguard, hmapg, filter_bool_map]
    simp [View.get]

/-- C4: `list` returns the absent sentinel when the derived view key does
not exist in the backing store; the empty sequence when the key exists but
the requested offset window holds no ids; and otherwise the objects resolved
from the ids of the range, in range order, dropping every id whose
object-cache entry resolves to nothing. -/
theorem list_spec (v : View) (st : Store) (offset limit : Int) (desc : Bool)
    (_key : Option String) (kwargs : List (String × String)) :
    (st.existsKey (v.get_key _key kwargs) = false →
      v.list st offset limit desc _key kwargs = none)
    ∧ (st.existsKey (v.get_key _key kwargs) = true →
      (if desc then st.zrevrange (v.get_key _key kwargs) offset (offset + limit)
       else st.zrange (v.get_key _key kwargs) offset (offset + limit)) = [] →
      v.list st offset limit desc _key kwargs = some [])
    ∧ ((if desc then st.zrevrange (v.get_key _key kwargs) offset (offset + limit)
        else st.zrange (v.get_key _key kwargs) offset (offset + limit)) ≠ [] →
      v.list st offset limit desc _key kwargs =
        some ((if desc then st.zrevrange (v.get_key _key kwargs) offset (offset + limit)
               else st.zrange (v.get_key _key kwargs) offset (offset + limit)).filterMap
          fun id => v.get st id)) := by
  refine ⟨?_, ?_, ?_⟩
  · intro hex
    cases hz : lookupA (v.get_key _key kwargs) st.zsets with
    | some es => rw [Store.existsKey, hz] at hex; simp at hex
    | none =>
      have hids : (if desc then st.zrevrange (v.get_key _key kwargs) offset (offset + limit)
          else st.zrange (v.get_key _key kwargs) offset (offset + limit)) = [] := by
        cases desc <;> simp [zrange_of_absent hz, zrevrange_of_absent hz]
      rw [list_eq, hids]
      simp [hex]
  · intro hex hids
    rw [list_eq, hids]
    simp [hex]
  · intro hne
    rw [list_eq, if_neg (fun h => hne (List.isEmpty_iff.mp h))]

/-- The `posts` view registered at module load. -/
def viewPosts : View := ⟨1, "posts"⟩

/-- A store holding the view `view:1:posts:` with single member `"a"` and
its object. -/
def stListW : Store :=
  ⟨[("view:1:posts:", [("a", 5)])], [("view:1:posts:objects:a", [("t", "x")])]⟩

/-- C4 witness: on a one-member view the non-empty-range case of `list_spec`
applies and returns the resolved objects. -/
theorem list_spec_witness :
    View.list viewPosts stListW 0 (-1) true none [] =
      some ((if true then stListW.zrevrange (View.get_key viewPosts none []) 0 (0 + -1)
             else stListW.zrange (View.get_key viewPosts none []) 0 (0 + -1)).filterMap
        fun id => View.get viewPosts stListW id) :=
  (list_spec viewPosts stListW 0 (-1) true none []).2.2 (by decide)

/-- C5: `get` returns the absent sentinel exactly when the store's
hash-get-all for the object key is empty — a never-added id and an all-empty
hash are both absent — otherwise it returns the stored mapping, and it never
returns an empty mapping as a present object. -/
theorem get_spec (v : View) (st : Store) (id : String) :
    (lookupA (v.get_obj_key id) st.hashes = none → v.get st id = none)
    ∧ (lookupA (v.get_obj_key id) st.hashes = some [] → v.get st id = none)
    ∧ (∀ m, lookupA (v.get_obj_key id) st.hashes = some m → m ≠ [] →
        v.get st id = some m)
    ∧ (∀ m, v.get st id = some m → m ≠ []) := by
  refine ⟨?_, ?_, ?_, ?_⟩
  · intro h; simp [View.get, Store.hgetall, h]
  · intro h; simp [View.get, Store.hgetall, h]
  · intro m h hm
    cases m with
    | nil => exact absurd rfl hm
    | cons a l => simp [View.get, Store.hgetall, h]
  · intro m h
    by_cases he : (st.hgetall (v.get_obj_key id)).isEmpty
    · simp [View.get, he] at h
    · have hm : st.hgetall (v.get_obj_key id) = m := by
        simpa [View.get, he] using h
      intro hnil
      apply he
      rw [hm, hnil]
      rfl

/-- C5 witness: a never-added id yields the absent sentinel on the empty
store. -/
theorem get_spec_witness : View.get viewPosts ⟨[], []⟩ "a" = none :=
  (get_spec viewPosts ⟨[], []⟩ "a").1 rfl

/-- `View.remove`: remove `data['id']` from the materialized view at the
derived key, then delete the object-cache key. -/
def View.remove (v : View) (st : Store) (data : Hash) (_key : Option String)
    (kwargs : List (String × String)) : Store :=
  let st1 := st.zrem (v.get_key _key kwargs) ((lookupA "id" data).getD "")
  st1.del (v.get_obj_key ((lookupA "id" data).getD ""))

/-- `View.remove_from_set`: remove `id` from the materialized view only. -/
def View.remove_from_set (v : View) (st : Store) (id : String)
    (_key : Option String) (kwargs : List (String × String)) : Store :=
  st.zrem (v.get_key _key kwargs) id

/-- C8: `remove` strips `data['id']` from the materialized view at the
derived view key AND deletes the object-cache entry for that id
unconditionally — other view keys are untouched (so other views may still
reference the now-deleted object). -/
theorem remove_spec (v : View) (st : Store) (data : Hash) (_key : Option String)
    (kwargs : List (String × String)) (i : String)
    (hid : lookupA "id" data = some i) :
    (lookupA (v.get_obj_key i) (v.remove st data _key kwargs).hashes = none)
    ∧ (∀ es, lookupA (v.get_key _key kwargs) (v.remove st data _key kwargs).zsets = some es →
        ∀ p ∈ es, p.1 ≠ i)
    ∧ (∀ k', k' ≠ v.get_key _key kwargs → k' ≠ v.get_obj_key i →
        lookupA k' (v.remove st data _key kwargs).zsets = lookupA k' st.zsets)
    ∧ (∀ k', k' ≠ v.get_obj_key i →
        lookupA k' (v.remove st data _key kwargs).hashes = lookupA k' st.hashes) := by
  have hgd : (lookupA "id" data).getD "" = i := by rw [hid]; rfl
  simp only [View.remove, Store.zrem, Store.del, hgd]
  refine ⟨?_, ?_, ?_, ?_⟩
  · exact lookupA_eraseKey_self _ _
  · intro es hes p hp
    by_cases hk : v.get_key _key kwargs = v.get_obj_key i
    · rw [hk, lookupA_eraseKey_self] at hes
      simp at hes
    · rw [lookupA_eraseKey_ne hk, lookupA_mapVal_self] at hes
      cases hz : lookupA (v.get_key _key kwargs) st.zsets with
      | none => rw [hz] at hes; simp at hes
      | some es0 =>
        rw [hz] at hes
        simp only [Option.map_some', Option.some.injEq] at hes
        rw [← hes] at hp
        exact fst_ne_of_mem_eraseKey hp
  · intro k' h1 h2
    rw [lookupA_eraseKey_ne h2, lookupA_mapVal_ne h1]
  · intro k' h2
    exact lookupA_eraseKey_ne h2 _

/-- C8 witness: removing `{'id': 'a'}` deletes the object-cache entry for
`"a"`. -/
theorem remove_spec_witness :
    lookupA (View.get_obj_key viewPosts "a")
      (View.remove viewPosts stListW [("id", "a")] none []).hashes = none :=
  (remove_spec viewPosts stListW [("id", "a")] none [] "a" rfl).1

/-- C9: `remove_from_set` removes `id` from the materialized view at the
derived key, leaves every other view key's entries unchanged, and leaves the
object cache exactly as it was. -/
theorem remove_from_set_spec (v : View) (st : Store) (id : String)
    (_key : Option String) (kwargs : List (String × String)) :
    ((v.remove_from_set st id _key kwargs).hashes = st.hashes)
    ∧ (∀ es, lookupA (v.get_key _key kwargs)
        (v.remove_from_set st id _key kwargs).zsets = some es →
        ∀ p ∈ es, p.1 ≠ id)
    ∧ (∀ k', k' ≠ v.get_key _key kwargs →
        lookupA k' (v.remove_from_set st id _key kwargs).zsets =
          lookupA k' st.zsets) := by
  refine ⟨rfl, ?_, ?_⟩
  · intro es hes p hp
    simp only [View.remove_from_set, Store.zrem] at hes
    rw [lookupA_mapVal_self] at hes
    cases hz : lookupA (v.get_key _key kwargs) st.zsets with
    | none => rw [hz] at hes; simp at hes
    | some es0 =>
      rw [hz] at hes
      simp only [Option.map_some', Option.some.injEq] at hes
      rw [← hes] at hp
      exact fst_ne_of_mem_eraseKey hp
  · intro k' h1
    simp only [View.remove_from_set, Store.zrem]
    exact lookupA_mapVal_ne h1 _ _

/-- C9 witness: an unrelated key's sorted set is untouched by
`remove_from_set`. -/
theorem remove_from_set_spec_witness :
    lookupA "zzz" (View.remove_from_set viewPosts stListW "a" none []).zsets =
      lookupA "zzz" stListW.zsets :=
  (remove_from_set_spec viewPosts stListW "a" none []).2.2 "zzz" (by decide)

/-! ## Search -/

/-- Whether an object's `field` tokens overlap the query tokens:
`set(obj[field].lower().split(' ')).intersection(words)` is non-empty.
A missing field (a `KeyError` in Python) is modelled as the empty string. -/
def matchesB (words : List String) (field : String) (obj : Hash) : Bool :=
  let tokens := splitSpace (toLowerStr ((lookupA field obj).getD ""))
  !(List.inter tokens words).isEmpty

/-- The inner `for obj in chunk` loop of `search`: advance the scan counter
`i` for every object, append matching objects to `results` and count them
in `n`. -/
def forChunk (words : List String) (field : String) :
    List Hash → Int × Int × List Hash → Int × Int × List Hash
  | [], acc => acc
  | obj :: rest, (i, n, results) =>
    if matchesB words field obj then
      forChunk words field rest (i + 1, n + 1, results ++ [obj])
    else
      forChunk words field rest (i + 1, n, results)

/-- Outcome of a `search` run: the source's `results`, `i` (count of objects
examined) and `n` (count of matches), plus the ghost trace `scanned` listing
every object examined, in order. -/
structure SRes where
  results : List Hash
  scanned : List Hash
  i : Int
  n : Int

/-- The `while i < 1000 and n < limit` loop of `search`. Every iteration
either breaks or grows `i` by at least one (an absent or empty chunk
breaks), so from `i = 0` the loop body can run at most 1000 times and 1001
units of fuel are never exhausted. -/
def searchLoop (v : View) (st : Store) (words : List String) (field : String)
    (limit : Int) (desc : Bool) (_key : Option String)
    (kwargs : List (String × String)) :
    Nat → Int → Int → List Hash → List Hash → SRes
  | 0, i, n, results, scanned => ⟨results, scanned, i, n⟩
  | fuel + 1, i, n, results, scanned =>
    if i < 1000 ∧ n < limit then
      match v.list st i limit desc _key kwargs with
      | none => ⟨results, scanned, i, n⟩
      | some [] => ⟨results, scanned, i, n⟩
      | some (obj :: rest) =>
        let step := forChunk words field (obj :: rest) (i, n, results)
        if step.2.1 > limit then
          ⟨step.2.2, scanned ++ obj :: rest, step.1, step.2.1⟩
        else
          searchLoop v st words field limit desc _key kwargs fuel
            step.1 step.2.1 step.2.2 (scanned ++ obj :: rest)
    else ⟨results, scanned, i, n⟩

/-- `View.search`, instrumented with the scan trace. -/
def View.searchFull (v : View) (st : Store) (query field : String)
    (limit : Int) (desc : Bool) (_key : Option String)
    (kwargs : List (String × String)) : SRes :=
  searchLoop v st (splitSpace (toLowerStr query)) field limit desc _key kwargs
    1001 0 0 [] []

/-- `View.search` returns the collected matching objects. -/
def View.search (v : View) (st : Store) (query field : String) (limit : Int)
    (desc : Bool) (_key : Option String) (kwargs : List (String × String)) :
    List Hash :=
  (v.searchFull st query field limit desc _key kwargs).results

theorem inter_isEmpty_eq (l1 l2 : List String) :
    (!(List.inter l1 l2).isEmpty) = l1.any fun x => l2.contains x := by
  induction l1 with
  | nil => rfl
  | cons a l ih =>
    cases he : List.elem a l2 with
    | false =>
      have hna : a ∉ l2 := by simpa using he
      have hi : List.inter (a :: l) l2 = List.inter l l2 := by
        simp [List.inter, List.filter_cons, hna]
      rw [hi, ih, List.any_cons]
      simp [hna]
    | true =>
      have hma : a ∈ l2 := by simpa using he
      have hi : List.inter (a :: l) l2 = a :: List.inter l l2 := by
        simp [List.inter, List.filter_cons, hma]
      rw [hi, List.any_cons]
      simp [hma]

theorem matchesB_eq_any (words : List String) (field : String) (obj : Hash) :
    matchesB words field obj =
      (splitSpace (toLowerStr ((lookupA field obj).getD ""))).any
        fun tok => words.contains tok := by
  simp only [matchesB]
  exact inter_isEmpty_eq _ _

theorem forChunk_results (words : List String) (field : String)
    (chunk : List Hash) : ∀ (i n : Int) (results : List Hash),
    (forChunk words field chunk (i, n, results)).2.2 =
      results ++ chunk.filter (matchesB words field) := by
  induction chunk with
  | nil => intro i n results; simp [forChunk]
  | cons obj rest ih =>
    intro i n results
    cases hm : matchesB words field obj
    · simp [forChunk, hm, ih, List.filter_cons]
    · simp [forChunk, hm, ih, List.filter_cons]

theorem searchLoop_results_eq_filter (v : View) (st : Store)
    (words : List String) (field : String) (limit : Int) (desc : Bool)
    (_key : Option String) (kwargs : List (String × String)) :
    ∀ (fuel : Nat) (i n : Int) (results scanned : List Hash),
    results = scanned.filter (matchesB words field) →
    (searchLoop v st words field limit desc _key kwargs fuel i n results scanned).results =
      (searchLoop v st words field limit desc _key kwargs fuel i n results
        scanned).scanned.filter (matchesB words field) := by
  intro fuel
  induction fuel with
  | zero => intro i n results scanned h; simpa [searchLoop] using h
  | succ fuel ih =>
    intro i n results scanned h
    simp only [searchLoop]
    by_cases hc : i < 1000 ∧ n < limit
    · rw [if_pos hc]
      cases hl : v.list st i limit desc _key kwargs with
      | none => simpa using h
      | some chunk =>
        cases chunk with
        | nil => simpa using h
        | cons obj rest =>
          dsimp only
          by_cases hn :
              (forChunk words field (obj :: rest) (i, n, results)).2.1 > limit
          · rw [if_pos hn]
            show (forChunk words field (obj :: rest) (i, n, results)).2.2 =
              (scanned ++ obj :: rest).filter (matchesB words field)
            rw [forChunk_results, h, ← List.filter_append]
          · rw [if_neg hn]
            exact ih _ _ _ _ (by rw [forChunk_results, h, ← List.filter_append])
    · rw [if_neg hc]
      simpa using h

/-- C7: among the objects that `search` scans, an object is appended to the
result exactly when the lowercase whitespace-separated tokens of its named
field share at least one token with the lowercase whitespace-separated
tokens of the query. -/
theorem search_filters_by_token_overlap (v : View) (st : Store)
    (query field : String) (limit : Int) (desc : Bool) (_key : Option String)
    (kwargs : List (String × String)) :
    (v.searchFull st query field limit desc _key kwargs).results =
      (v.searchFull st query field limit desc _key kwargs).scanned.filter
        fun obj => (splitSpace (toLowerStr ((lookupA field obj).getD ""))).any
          fun tok => (splitSpace (toLowerStr query)).contains tok := by
  have hb : (fun obj => (splitSpace (toLowerStr ((lookupA field obj).getD ""))).any
      fun tok => (splitSpace (toLowerStr query)).contains tok) =
      matchesB (splitSpace (toLowerStr query)) field := by
    funext obj
    exact (matchesB_eq_any (splitSpace (toLowerStr query)) field obj).symm
  rw [hb]
  simp only [View.searchFull]
  exact searchLoop_results_eq_filter v st (splitSpace (toLowerStr query)) field
    limit desc _key kwargs 1001 0 0 [] [] rfl

/-- A store whose `posts` view holds 1001 members, every one resolving to an
object whose field `"f"` is `"x"`. -/
def stBig : Store :=
  ⟨[("view:1:posts:", List.replicate 1001 ("a", 0))],
   [("view:1:posts:objects:a", [("f", "x")])]⟩

/-- C6: counterexample to the scan bound: on a 1001-member view with
`limit = 1000` and a query matching nothing, `search` examines 1001 objects
in total — the loop guard checks `i < 1000` before fetching a chunk of
`limit + 1` objects, so the docstring's cap of 1000 scanned rows is
exceeded. -/
theorem zle_self_a : zle ("a", (0 : Int)) ("a", 0) := by decide

theorem orderedInsert_replicate (n : Nat) :
    List.orderedInsert zle ("a", (0 : Int)) (List.replicate n ("a", 0)) =
      ("a", 0) :: List.replicate n ("a", 0) := by
  cases n with
  | zero => rfl
  | succ m =>
    rw [List.replicate_succ]
    simp only [List.orderedInsert]
    rw [if_pos zle_self_a]

theorem insertionSort_replicate (n : Nat) :
    List.insertionSort zle (List.replicate n ("a", (0 : Int))) =
      List.replicate n ("a", 0) := by
  induction n with
  | zero => rfl
  | succ m ih =>
    rw [List.replicate_succ]
    simp only [List.insertionSort]
    rw [ih, orderedInsert_replicate, ← List.replicate_succ]

theorem rangeSlice_replicate_1001 :
    rangeSlice (List.replicate 1001 "a") 0 1000 = List.replicate 1001 "a" := by
  simp only [rangeSlice, List.length_replicate]
  norm_num
  rfl

theorem lookup_stBig :
    lookupA "view:1:posts:" stBig.zsets = some (List.replicate 1001 ("a", 0)) := rfl

theorem stBig_zrevrange :
    stBig.zrevrange "view:1:posts:" 0 1000 = List.replicate 1001 "a" := by
  simp only [Store.zrevrange, lookup_stBig]
  rw [insertionSort_replicate, List.map_replicate, List.reverse_replicate]
  exact rangeSlice_replicate_1001

theorem get_stBig_a : View.get viewPosts stBig "a" = some [("f", "x")] := rfl

theorem filterMap_replicate_some {α β : Type} (f : α → Option β) (a : α) (b : β)
    (hf : f a = some b) (n : Nat) :
    (List.replicate n a).filterMap f = List.replicate n b := by
  induction n with
  | zero => rfl
  | succ m ih =>
    rw [List.replicate_succ, List.filterMap_cons, hf]
    dsimp only
    rw [ih, List.replicate_succ]

theorem stBig_list :
    View.list viewPosts stBig 0 1000 true none [] =
      some (List.replicate 1001 [("f", "x")]) := by
  rw [list_eq, if_pos (show (true : Bool) = true from rfl)]
  rw [show View.get_key viewPosts none [] = "view:1:posts:" from rfl]
  rw [show (0 : Int) + 1000 = 1000 from rfl]
  rw [stBig_zrevrange]
  rw [if_neg (by simp : ¬((List.replicate 1001 "a").isEmpty = true))]
  rw [filterMap_replicate_some (fun id => View.get viewPosts stBig id) "a"
    [("f", "x")] get_stBig_a 1001]

theorem forChunk_all_nomatch (words : List String) (field : String)
    (chunk : List Hash) (h : ∀ o ∈ chunk, matchesB words field o = false) :
    ∀ (i n : Int) (results : List Hash),
      forChunk words field chunk (i, n, results) = (i + chunk.length, n, results) := by
  induction chunk with
  | nil => intro i n results; simp [forChunk]
  | cons obj rest ih =>
    intro i n results
    have hm : matchesB words field obj = false := h obj (List.mem_cons_self obj rest)
    have hrest : ∀ o ∈ rest, matchesB words field o = false :=
      fun o ho => h o (List.mem_cons_of_mem obj ho)
    simp only [forChunk, hm, Bool.false_eq_true, if_false, ih hrest, List.length_cons]
    push_cast
    congr 1
    ring

theorem searchLoop_succ (v : View) (st : Store) (words : List String)
    (field : String) (limit : Int) (desc : Bool) (_key : Option String)
    (kwargs : List (String × String)) (fuel : Nat) (i n : Int)
    (results scanned : List Hash) :
    searchLoop v st words field limit desc _key kwargs (fuel + 1) i n results scanned =
      (if i < 1000 ∧ n < limit then
        match v.list st i limit desc _key kwargs with
        | none => ⟨results, scanned, i, n⟩
        | some [] => ⟨results, scanned, i, n⟩
        | some (obj :: rest) =>
          let step := forChunk words field (obj :: rest) (i, n, results)
          if step.2.1 > limit then
            ⟨step.2.2, scanned ++ obj :: rest, step.1, step.2.1⟩
          else
            searchLoop v st words field limit desc _key kwargs fuel
              step.1 step.2.1 step.2.2 (scanned ++ obj :: rest)
      else ⟨results, scanned, i, n⟩) := rfl

/-- C6: counterexample to the scan bound: on a 1001-member view with
`limit = 1000` and a query matching nothing, `search` examines 1001 objects
in total (its `i` counter ends at 1001) — the loop guard checks `i < 1000`
before fetching a chunk of `limit + 1` objects, so the cap of 1000 scanned
rows claimed by the docstring and the spec is exceeded. -/
theorem search_scans_over_1000 :
    (View.searchFull viewPosts stBig "q" "f" 1000 true none []).i = 1001 := by
  have hm : ∀ o ∈ List.replicate 1001 ([("f", "x")] : Hash),
      matchesB (splitSpace (toLowerStr "q")) "f" o = false := by
    intro o ho
    rw [List.eq_of_mem_replicate ho]
    decide
  show (searchLoop viewPosts stBig (splitSpace (toLowerStr "q")) "f" 1000 true
      none [] 1001 0 0 [] []).i = 1001
  rw [show (1001 : Nat) = 1000 + 1 from rfl, searchLoop_succ]
  rw [if_pos (by norm_num : (0 : Int) < 1000 ∧ (0 : Int) < 1000)]
  rw [show View.list viewPosts stBig 0 1000 true none [] =
    some ([("f", "x")] :: List.replicate 1000 [("f", "x")]) from by
      rw [stBig_list, ← List.replicate_succ]]
  dsimp only
  rw [show ([("f", "x")] : Hash) :: List.replicate 1000 [("f", "x")] =
    List.replicate 1001 [("f", "x")] from (List.replicate_succ _ _).symm]
  rw [forChunk_all_nomatch (splitSpace (toLowerStr "q")) "f"
    (List.replicate 1001 [("f", "x")]) hm 0 0 []]
  simp only [List.length_replicate]
  norm_num
  rw [show (1000 : Nat) = 999 + 1 from rfl, searchLoop_succ,
    if_neg (show ¬((1001 : Int) < 1000 ∧ (0 : Int) < 1000) by norm_num)]
